import Mathlib

/-!
Verification of the indentation-based folding-range computation
(`src/vs/editor/common/model/indentRanges.ts`).

The TypeScript source is shallowly embedded below.  Line numbers are `Nat`,
indent levels are `Int` (the source uses `-1` as the whitespace-only sentinel
and `-2` as the awaiting-marker sentinel).  Stack accesses that would read
`previousRegions[previousRegions.length - 1]` on an empty array (a crash in
the source) are modelled by returning `none`; a `some` result therefore means
every stack access during the computation was in bounds.
-/

namespace IndentRanges

/-- The part of the `ITextModel` interface consumed by `computeRanges`:
a line count, 1-based line contents and a 1-based per-line indent level,
where `-1` denotes a whitespace-only or empty line. -/
structure TextModel where
  lineCount : Nat
  getLineContent : Nat → String
  getIndentLevel : Nat → Int

/-- `IndentRange` from the source.  The `marker` field is an optional
boolean in TypeScript (`marker?: boolean`); `none` models `undefined`. -/
structure IndentRange where
  startLineNumber : Nat
  endLineNumber : Nat
  indent : Int
  marker : Option Bool
deriving DecidableEq

/-- `IndentRange.deepCloneArr`: clones each element with
`new IndentRange(r.startLineNumber, r.endLineNumber, r.indent)`, so the
`marker` argument is omitted (undefined). -/
def IndentRange.deepCloneArr (indentRanges : List IndentRange) : List IndentRange :=
  indentRanges.map fun r => ⟨r.startLineNumber, r.endLineNumber, r.indent, none⟩

/-- `FoldMarkers` from the source: a start pattern, an end pattern and an
optional indent constraint.  The patterns are kept as literal strings; the
source compiles them into the regular expression `(start)|(?:end)`. -/
structure FoldMarkers where
  start : String
  end_ : String
  indent : Option Int
deriving DecidableEq

/-- `PreviousRegion` from the source.  The `marker` field holds either the
compiled pattern or `null` in TypeScript and is only ever tested for
truthiness, so a `Bool` is a faithful rendering. -/
structure PreviousRegion where
  indent : Int
  line : Nat
  marker : Bool
deriving DecidableEq

/-- Matching of the alternation `(start)|(?:end)` for literal marker strings:
positions are scanned left to right and at each position the start
alternative is tried before the end alternative, as a regular-expression
engine does.  `some true` means the first capture group (the start marker)
matched, `some false` means the end marker matched. -/
def findMatch (s e : List Char) : List Char → Option Bool
  | [] =>
    if List.isPrefixOf s [] then some true
    else if List.isPrefixOf e [] then some false
    else none
  | c :: rest =>
    if List.isPrefixOf s (c :: rest) then some true
    else if List.isPrefixOf e (c :: rest) then some false
    else findMatch s e rest

/-- The condition
`pattern && (patternIndent === -1 || patternIndent === indent) && (m = model.getLineContent(line).match(pattern))`
from the source, collapsed into the outcome of the match:
`some true` for a start-pattern match, `some false` for an end-pattern match,
`none` when there is no marker configuration, the indent constraint fails,
or the line does not match. -/
def matchLine (markers : Option FoldMarkers) (patternIndent indent : Int) (content : String) : Option Bool :=
  match markers with
  | some mk =>
    if patternIndent = -1 ∨ patternIndent = indent then
      findMatch mk.start.toList mk.end_.toList content.toList
    else none
  | none => none

/-- The `do { previousRegions.pop(); ... } while (previous.indent >= 0 && !previous.marker)`
discard loop of the start-marker branch.  Reading the top of an empty stack
yields `none`. -/
def discardLoop : List PreviousRegion → Option (List PreviousRegion)
  | [] => none
  | p :: rest =>
    if 0 ≤ p.indent ∧ p.marker = false then discardLoop rest else some (p :: rest)

/-- The `do { previousRegions.pop(); ... } while (previous.indent > indent)`
pop loop of the plain-indentation branch.  Reading the top of an empty stack
yields `none`. -/
def popLoop (indent : Int) : List PreviousRegion → Option (List PreviousRegion)
  | [] => none
  | p :: rest =>
    if indent < p.indent then popLoop indent rest else some (p :: rest)

/-- The tail of the plain-indentation branch:
`if (previous.indent === indent) { previous.line = line; } else { previousRegions.push({indent, line, marker: null}); }`. -/
def finishPlain (indent : Int) (line : Nat) (p2 : PreviousRegion) (r2 : List PreviousRegion) (result : List IndentRange) : List PreviousRegion × List IndentRange :=
  if p2.indent = indent then ({ p2 with line := line } :: r2, result)
  else (⟨indent, line, false⟩ :: p2 :: r2, result)

/-- One iteration of the main `for (let line = ...; line > 0; line--)` loop of
`computeRanges`, acting on the pending-region stack and the result list.
`none` models an out-of-bounds read of `previousRegions[previousRegions.length - 1]`. -/
def processLine (model : TextModel) (offSide : Bool) (markers : Option FoldMarkers) (patternIndent minimumRangeSize : Int) (line : Nat) (stack : List PreviousRegion) (result : List IndentRange) : Option (List PreviousRegion × List IndentRange) :=
  match stack with
  | [] => none
  | previous :: rest =>
    let indent := model.getIndentLevel line
    if indent = -1 then
      if offSide then some ({ previous with line := line } :: rest, result)
      else some (previous :: rest, result)
    else
      match matchLine markers patternIndent indent (model.getLineContent line) with
      | some true =>
        match (if 0 ≤ previous.indent ∧ previous.marker = false then discardLoop (previous :: rest) else some (previous :: rest)) with
        | none => none
        | some [] => none
        | some (p2 :: r2) =>
          if p2.marker then
            some (⟨indent, line, false⟩ :: r2, result ++ [⟨line, p2.line, indent, some true⟩])
          else
            some (p2 :: r2, result)
      | some false => some (⟨-2, line, true⟩ :: previous :: rest, result)
      | none =>
        if previous.indent > indent then
          match popLoop indent (previous :: rest) with
          | none => none
          | some [] => none
          | some (p2 :: r2) =>
            let endLineNumber := p2.line - 1
            if minimumRangeSize ≤ (endLineNumber : Int) - (line : Int) then
              some (finishPlain indent line p2 r2 (result ++ [⟨line, endLineNumber, indent, none⟩]))
            else
              some (finishPlain indent line p2 r2 result)
        else some (finishPlain indent line previous rest result)

/-- The main loop of `computeRanges`, iterating `line` from `n` down to `1`. -/
def loop (model : TextModel) (offSide : Bool) (markers : Option FoldMarkers) (patternIndent minimumRangeSize : Int) : Nat → List PreviousRegion → List IndentRange → Option (List PreviousRegion × List IndentRange)
  | 0, stack, result => some (stack, result)
  | n + 1, stack, result =>
    match processLine model offSide markers patternIndent minimumRangeSize (n + 1) stack result with
    | none => none
    | some (stack2, result2) => loop model offSide markers patternIndent minimumRangeSize n stack2 result2

/-- `patternIndent` as computed by `computeRanges`:
`typeof markers.indent === 'number' ? markers.indent : -1`, and `-1` when
there is no marker configuration. -/
def patternIndentOf (markers : Option FoldMarkers) : Int :=
  match markers with
  | some mk =>
    match mk.indent with
    | some i => i
    | none => -1
  | none => -1

/-- `computeRanges(model, offSide, markers?, minimumRangeSize = 1)`: seeds the
stack with the sentinel `{indent: -1, line: lineCount + 1, marker: null}`,
walks the buffer bottom-up and reverses the collected ranges. -/
def computeRanges (model : TextModel) (offSide : Bool) (markers : Option FoldMarkers) (minimumRangeSize : Int) : Option (List IndentRange) :=
  match loop model offSide markers (patternIndentOf markers) minimumRangeSize model.lineCount [⟨-1, model.lineCount + 1, false⟩] [] with
  | none => none
  | some (_, result) => some result.reverse

/-- Modelled from the claim C1 wording (NOT from the source): the pop loop of
the plain-indentation branch as the claim describes it, emitting one range per
popped region, namely `[line, poppedLine - 1]` with the popped region's
indent, whenever `poppedLine - 1 - currentLine` is at least
`minimumRangeSize`.  Used only to compare the claim's behaviour with the
source's behaviour. -/
def popLoopClaimC1 (indent : Int) (line : Nat) (minimumRangeSize : Int) : List PreviousRegion → Option (List PreviousRegion × List IndentRange)
  | [] => none
  | p :: rest =>
    if indent < p.indent then
      match popLoopClaimC1 indent line minimumRangeSize rest with
      | none => none
      | some (s2, es) =>
        if minimumRangeSize ≤ ((p.line : Int) - 1) - (line : Int) then
          some (s2, ⟨line, p.line - 1, p.indent, none⟩ :: es)
        else some (s2, es)
    else some (p :: rest, [])

/-- Modelled from the claim C1 wording: `processLine` with the
plain-indentation branch emitting ranges per popped region as claim C1
states, everything else as in the source. -/
def processLineClaimC1 (model : TextModel) (offSide : Bool) (markers : Option FoldMarkers) (patternIndent minimumRangeSize : Int) (line : Nat) (stack : List PreviousRegion) (result : List IndentRange) : Option (List PreviousRegion × List IndentRange) :=
  match stack with
  | [] => none
  | previous :: rest =>
    let indent := model.getIndentLevel line
    if indent = -1 then
      if offSide then some ({ previous with line := line } :: rest, result)
      else some (previous :: rest, result)
    else
      match matchLine markers patternIndent indent (model.getLineContent line) with
      | some true =>
        match (if 0 ≤ previous.indent ∧ previous.marker = false then discardLoop (previous :: rest) else some (previous :: rest)) with
        | none => none
        | some [] => none
        | some (p2 :: r2) =>
          if p2.marker then
            some (⟨indent, line, false⟩ :: r2, result ++ [⟨line, p2.line, indent, some true⟩])
          else
            some (p2 :: r2, result)
      | some false => some (⟨-2, line, true⟩ :: previous :: rest, result)
      | none =>
        if previous.indent > indent then
          match popLoopClaimC1 indent line minimumRangeSize (previous :: rest) with
          | none => none
          | some ([], _) => none
          | some (p2 :: r2, es) => some (finishPlain indent line p2 r2 (result ++ es))
        else some (finishPlain indent line previous rest result)

/-- Modelled from the claim C1 wording: the main loop over `processLineClaimC1`. -/
def loopClaimC1 (model : TextModel) (offSide : Bool) (markers : Option FoldMarkers) (patternIndent minimumRangeSize : Int) : Nat → List PreviousRegion → List IndentRange → Option (List PreviousRegion × List IndentRange)
  | 0, stack, result => some (stack, result)
  | n + 1, stack, result =>
    match processLineClaimC1 model offSide markers patternIndent minimumRangeSize (n + 1) stack result with
    | none => none
    | some (stack2, result2) => loopClaimC1 model offSide markers patternIndent minimumRangeSize n stack2 result2

/-- Modelled from the claim C1 wording: `computeRanges` with the emission
rule claim C1 describes. -/
def computeRangesClaimC1 (model : TextModel) (offSide : Bool) (markers : Option FoldMarkers) (minimumRangeSize : Int) : Option (List IndentRange) :=
  match loopClaimC1 model offSide markers (patternIndentOf markers) minimumRangeSize model.lineCount [⟨-1, model.lineCount + 1, false⟩] [] with
  | none => none
  | some (_, result) => some result.reverse

/-- A `TextModel` built from explicit per-line indent levels and contents;
out-of-range lines read as empty (`indent -1`, content `""`). -/
def mkModel (indents : List Int) (contents : List String) : TextModel :=
  { lineCount := indents.length
    getLineContent := fun line => contents.getD (line - 1) ""
    getIndentLevel := fun line => indents.getD (line - 1) (-1) }

/-- Five lines with indents `[0, 1, 2, 1, 0]` (the worked example of the spec). -/
def mC6 : TextModel := mkModel [0, 1, 2, 1, 0] ["", "", "", "", ""]

/-- Five lines with indents `[0, 1, -1, 1, 0]`: a blank line inside an
indent-1 block spanning lines 2 to 4. -/
def mC5 : TextModel := mkModel [0, 1, -1, 1, 0] ["", "", "", "", ""]

/-- The marker configuration `{start: '#region', end: '#endregion'}` with the
indent constraint unset. -/
def markersC7 : FoldMarkers := { start := "#region", end_ := "#endregion", indent := none }

/-- Three lines `#region` / `code` / `#endregion`, all at indent 0. -/
def mC7 : TextModel := mkModel [0, 0, 0] ["#region", "code", "#endregion"]

/-- The empty buffer. -/
def mEmpty : TextModel := mkModel [] []

/-- Well-formedness of a model as assumed by the algorithm: every indent
level is either the whitespace sentinel `-1` or non-negative. -/
def WellFormed (model : TextModel) : Prop :=
  ∀ line : Nat, -1 ≤ model.getIndentLevel line

/-- The pending-region stack still carries the base sentinel: its bottom
element has indent `-1` and no marker. -/
def BotSentinel (s : List PreviousRegion) : Prop :=
  ∃ init b, s = init ++ [b] ∧ b.indent = -1 ∧ b.marker = false

/-- Invariant of the pending-region stack before line `n` is processed with
lower bound `n` on the recorded lines: every entry's `line` is between `n`
and `lineCount + 1`, and entries carrying a marker stay within `lineCount`. -/
def StackInv (model : TextModel) (n : Nat) (s : List PreviousRegion) : Prop :=
  ∀ e ∈ s, n ≤ e.line ∧ e.line ≤ model.lineCount + 1 ∧ (e.marker = true → e.line ≤ model.lineCount)

/-- Invariant of the collected (not yet reversed) result list after all lines
above `n` have been processed: start lines strictly decrease along the list,
every range starts after line `n`, is well ordered, stays within the buffer,
and non-marker ranges respect the minimum range size. -/
def ResInv (model : TextModel) (minimumRangeSize : Int) (n : Nat) (rs : List IndentRange) : Prop :=
  rs.Pairwise (fun a b => b.startLineNumber < a.startLineNumber) ∧
  ∀ r ∈ rs, n < r.startLineNumber ∧ r.startLineNumber ≤ r.endLineNumber ∧
    r.endLineNumber ≤ model.lineCount ∧
    (r.marker ≠ some true → minimumRangeSize ≤ (r.endLineNumber : Int) - (r.startLineNumber : Int))

theorem getD_wf (xs : List Int) (h : ∀ i ∈ xs, -1 ≤ i) : ∀ n : Nat, -1 ≤ xs.getD n (-1) := by
  induction xs with
  | nil => intro n; simp [List.getD]
  | cons a t ih =>
    intro n
    cases n with
    | zero => simpa [List.getD] using h a (List.mem_cons_self a t)
    | succ m => simpa [List.getD] using ih (fun i hi => h i (List.mem_cons_of_mem a hi)) m

theorem mkModel_wf (indents : List Int) (contents : List String) (h : ∀ i ∈ indents, -1 ≤ i) :
    WellFormed (mkModel indents contents) :=
  fun line => getD_wf indents h (line - 1)

theorem discardLoop_suffix : ∀ (s s2 : List PreviousRegion), discardLoop s = some s2 → s2 <:+ s := by
  intro s
  induction s with
  | nil => intro s2 h; simp [discardLoop] at h
  | cons p rest ih =>
    intro s2 h
    simp only [discardLoop] at h
    split at h
    · exact (ih s2 h).trans (List.suffix_cons p rest)
    · cases h
      exact List.suffix_refl _

theorem popLoop_suffix (indent : Int) : ∀ (s s2 : List PreviousRegion), popLoop indent s = some s2 → s2 <:+ s := by
  intro s
  induction s with
  | nil => intro s2 h; simp [popLoop] at h
  | cons p rest ih =>
    intro s2 h
    simp only [popLoop] at h
    split at h
    · exact (ih s2 h).trans (List.suffix_cons p rest)
    · cases h
      exact List.suffix_refl _

theorem discardLoop_bot : ∀ (init : List PreviousRegion) (b : PreviousRegion), b.indent = -1 →
    ∃ init2, discardLoop (init ++ [b]) = some (init2 ++ [b]) := by
  intro init b hb
  induction init with
  | nil =>
    refine ⟨[], ?_⟩
    have hc : ¬(0 ≤ b.indent ∧ b.marker = false) := by
      rw [hb]; intro hcontra; omega
    simp only [List.nil_append, discardLoop]
    rw [if_neg hc]
  | cons a t ih =>
    by_cases hc : 0 ≤ a.indent ∧ a.marker = false
    · obtain ⟨init2, h2⟩ := ih
      refine ⟨init2, ?_⟩
      simp only [List.cons_append, discardLoop]
      rw [if_pos hc]
      exact h2
    · refine ⟨a :: t, ?_⟩
      simp only [List.cons_append, discardLoop]
      rw [if_neg hc]
      rfl

theorem popLoop_bot (indent : Int) (hind : -1 ≤ indent) : ∀ (init : List PreviousRegion) (b : PreviousRegion), b.indent = -1 →
    ∃ init2, popLoop indent (init ++ [b]) = some (init2 ++ [b]) := by
  intro init b hb
  induction init with
  | nil =>
    refine ⟨[], ?_⟩
    have hc : ¬ indent < b.indent := by rw [hb]; omega
    simp only [List.nil_append, popLoop]
    rw [if_neg hc]
  | cons a t ih =>
    by_cases hc : indent < a.indent
    · obtain ⟨init2, h2⟩ := ih
      refine ⟨init2, ?_⟩
      simp only [List.cons_append, popLoop]
      rw [if_pos hc]
      exact h2
    · refine ⟨a :: t, ?_⟩
      simp only [List.cons_append, popLoop]
      rw [if_neg hc]
      rfl

theorem stackInv_mono {model : TextModel} {n m : Nat} {s : List PreviousRegion}
    (h : StackInv model n s) (hmn : m ≤ n) : StackInv model m s :=
  fun e he => ⟨le_trans hmn (h e he).1, (h e he).2⟩

theorem StackInv.of_suffix {model : TextModel} {n : Nat} {s s2 : List PreviousRegion}
    (hsfx : s2 <:+ s) (h : StackInv model n s) : StackInv model n s2 :=
  fun e he => h e (hsfx.subset he)

theorem stackInv_cons {model : TextModel} {n : Nat} {s : List PreviousRegion} {e : PreviousRegion}
    (h : StackInv model n s) (h1 : n ≤ e.line) (h2 : e.line ≤ model.lineCount + 1)
    (h3 : e.marker = true → e.line ≤ model.lineCount) : StackInv model n (e :: s) := by
  intro x hx
  rcases List.mem_cons.mp hx with rfl | hx
  · exact ⟨h1, h2, h3⟩
  · exact h x hx

theorem resInv_mono {model : TextModel} {mS : Int} {n m : Nat} {rs : List IndentRange}
    (h : ResInv model mS n rs) (hmn : m ≤ n) : ResInv model mS m rs :=
  ⟨h.1, fun r hr => ⟨lt_of_le_of_lt hmn (h.2 r hr).1, (h.2 r hr).2⟩⟩

theorem ResInv.push {model : TextModel} {mS : Int} {n : Nat} {rs : List IndentRange} {a : IndentRange}
    (h : ResInv model mS (n + 1) rs) (h1 : a.startLineNumber = n + 1)
    (h2 : a.startLineNumber ≤ a.endLineNumber) (h3 : a.endLineNumber ≤ model.lineCount)
    (h4 : a.marker ≠ some true → mS ≤ (a.endLineNumber : Int) - (a.startLineNumber : Int)) :
    ResInv model mS n (rs ++ [a]) := by
  constructor
  · rw [List.pairwise_append]
    refine ⟨h.1, List.pairwise_singleton _ _, ?_⟩
    intro x hx y hy
    rcases List.mem_singleton.mp hy with rfl
    rw [h1]
    exact (h.2 x hx).1
  · intro r hr
    rcases List.mem_append.mp hr with hr | hr
    · exact ⟨Nat.lt_of_succ_lt (h.2 r hr).1, (h.2 r hr).2⟩
    · rcases List.mem_singleton.mp hr with rfl
      exact ⟨by omega, h2, h3, h4⟩

theorem botSentinel_cons {s : List PreviousRegion} (h : BotSentinel s) (e : PreviousRegion) :
    BotSentinel (e :: s) := by
  obtain ⟨init, b, rfl, h1, h2⟩ := h
  exact ⟨e :: init, b, rfl, h1, h2⟩

theorem BotSentinel.head_tail {p : PreviousRegion} {rest : List PreviousRegion}
    (h : BotSentinel (p :: rest)) :
    (p.indent = -1 ∧ p.marker = false ∧ rest = []) ∨ BotSentinel rest := by
  obtain ⟨init, b, he, h1, h2⟩ := h
  cases init with
  | nil =>
    simp only [List.nil_append, List.cons.injEq] at he
    obtain ⟨rfl, rfl⟩ := he
    exact Or.inl ⟨h1, h2, rfl⟩
  | cons a t =>
    rw [List.cons_append] at he
    injection he with he1 he2
    exact Or.inr ⟨t, b, he2, h1, h2⟩

theorem BotSentinel.replace_head_line {p : PreviousRegion} {rest : List PreviousRegion}
    (h : BotSentinel (p :: rest)) (l : Nat) : BotSentinel ({ p with line := l } :: rest) := by
  rcases h.head_tail with ⟨h1, h2, rfl⟩ | h3
  · exact ⟨[], { p with line := l }, rfl, h1, h2⟩
  · exact botSentinel_cons h3 _

theorem initialStackInv (model : TextModel) :
    StackInv model (model.lineCount + 1) [⟨-1, model.lineCount + 1, false⟩] := by
  intro e he
  rcases List.mem_singleton.mp he with rfl
  refine ⟨le_refl _, le_refl _, ?_⟩
  intro hc
  simp at hc

theorem initialResInv (model : TextModel) (mS : Int) : ResInv model mS model.lineCount [] :=
  ⟨List.Pairwise.nil, by intro r hr; simp at hr⟩

theorem processLine_inv (model : TextModel) (offSide : Bool) (markers : Option FoldMarkers) (pI mS : Int)
    {n : Nat} {s s2 : List PreviousRegion} {r r2 : List IndentRange}
    (hlc : n + 1 ≤ model.lineCount)
    (hs : StackInv model (n + 2) s)
    (hr : ResInv model mS (n + 1) r)
    (h : processLine model offSide markers pI mS (n + 1) s r = some (s2, r2)) :
    StackInv model (n + 1) s2 ∧ ResInv model mS n r2 := by
  cases s with
  | nil => simp [processLine] at h
  | cons previous rest =>
    have hsTail : StackInv model (n + 2) rest := StackInv.of_suffix (List.suffix_cons previous rest) hs
    obtain ⟨hpa, hpb, hpc⟩ := hs previous (List.mem_cons_self _ _)
    simp only [processLine] at h
    split at h
    · -- whitespace-only line
      split at h
      · rw [Option.some.injEq, Prod.mk.injEq] at h
        obtain ⟨rfl, rfl⟩ := h
        refine ⟨stackInv_cons (stackInv_mono hsTail (by omega)) ?_ ?_ ?_, resInv_mono hr (by omega)⟩
        · show n + 1 ≤ n + 1; exact le_refl _
        · show n + 1 ≤ model.lineCount + 1; omega
        · intro _; show n + 1 ≤ model.lineCount; omega
      · rw [Option.some.injEq, Prod.mk.injEq] at h
        obtain ⟨rfl, rfl⟩ := h
        exact ⟨stackInv_mono hs (by omega), resInv_mono hr (by omega)⟩
    · -- non-whitespace line
      split at h
      · -- start-marker match
        split at h
        · exact absurd h (by simp)
        · exact absurd h (by simp)
        · rename_i p2 q2 heq
          have hsfx : (p2 :: q2) <:+ (previous :: rest) := by
            split at heq
            · exact discardLoop_suffix _ _ heq
            · rw [Option.some.injEq] at heq
              rw [← heq]
          obtain ⟨hp2a, hp2b, hp2c⟩ := hs p2 (hsfx.subset (List.mem_cons_self p2 q2))
          have hq2 : StackInv model (n + 2) q2 :=
            StackInv.of_suffix ((List.suffix_cons p2 q2).trans hsfx) hs
          split at h
          · rename_i hm
            rw [Option.some.injEq, Prod.mk.injEq] at h
            obtain ⟨rfl, rfl⟩ := h
            constructor
            · refine stackInv_cons (stackInv_mono hq2 (by omega)) ?_ ?_ ?_
              · show n + 1 ≤ n + 1; exact le_refl _
              · show n + 1 ≤ model.lineCount + 1; omega
              · intro _; show n + 1 ≤ model.lineCount; omega
            · refine ResInv.push hr rfl ?_ ?_ ?_
              · show n + 1 ≤ p2.line; omega
              · show p2.line ≤ model.lineCount; exact hp2c hm
              · intro hcontra; exact absurd rfl hcontra
          · rw [Option.some.injEq, Prod.mk.injEq] at h
            obtain ⟨rfl, rfl⟩ := h
            exact ⟨stackInv_mono (StackInv.of_suffix hsfx hs) (by omega), resInv_mono hr (by omega)⟩
      · -- end-marker match
        rw [Option.some.injEq, Prod.mk.injEq] at h
        obtain ⟨rfl, rfl⟩ := h
        refine ⟨stackInv_cons (stackInv_mono hs (by omega)) ?_ ?_ ?_, resInv_mono hr (by omega)⟩
        · show n + 1 ≤ n + 1; exact le_refl _
        · show n + 1 ≤ model.lineCount + 1; omega
        · intro _; show n + 1 ≤ model.lineCount; omega
      · -- plain indentation line
        split at h
        · -- the top of the stack has a larger indent: pop
          split at h
          · exact absurd h (by simp)
          · exact absurd h (by simp)
          · rename_i p2 q2 heq
            have hsfx : (p2 :: q2) <:+ (previous :: rest) := popLoop_suffix _ _ _ heq
            obtain ⟨hp2a, hp2b, hp2c⟩ := hs p2 (hsfx.subset (List.mem_cons_self p2 q2))
            have hq2 : StackInv model (n + 2) q2 :=
              StackInv.of_suffix ((List.suffix_cons p2 q2).trans hsfx) hs
            have hq2' : StackInv model (n + 1) (p2 :: q2) :=
              stackInv_cons (stackInv_mono hq2 (by omega)) (by omega) hp2b hp2c
            split at h
            · rename_i hcond
              simp only [finishPlain] at h
              split at h
              · rw [Option.some.injEq, Prod.mk.injEq] at h
                obtain ⟨rfl, rfl⟩ := h
                constructor
                · refine stackInv_cons (stackInv_mono hq2 (by omega)) ?_ ?_ ?_
                  · show n + 1 ≤ n + 1; exact le_refl _
                  · show n + 1 ≤ model.lineCount + 1; omega
                  · intro _; show n + 1 ≤ model.lineCount; omega
                · refine ResInv.push hr rfl ?_ ?_ ?_
                  · show n + 1 ≤ p2.line - 1; omega
                  · show p2.line - 1 ≤ model.lineCount; omega
                  · intro _; exact hcond
              · rw [Option.some.injEq, Prod.mk.injEq] at h
                obtain ⟨rfl, rfl⟩ := h
                constructor
                · refine stackInv_cons hq2' ?_ ?_ ?_
                  · show n + 1 ≤ n + 1; exact le_refl _
                  · show n + 1 ≤ model.lineCount + 1; omega
                  · intro _; show n + 1 ≤ model.lineCount; omega
                · refine ResInv.push hr rfl ?_ ?_ ?_
                  · show n + 1 ≤ p2.line - 1; omega
                  · show p2.line - 1 ≤ model.lineCount; omega
                  · intro _; exact hcond
            · simp only [finishPlain] at h
              split at h
              · rw [Option.some.injEq, Prod.mk.injEq] at h
                obtain ⟨rfl, rfl⟩ := h
                refine ⟨stackInv_cons (stackInv_mono hq2 (by omega)) ?_ ?_ ?_, resInv_mono hr (by omega)⟩
                · show n + 1 ≤ n + 1; exact le_refl _
                · show n + 1 ≤ model.lineCount + 1; omega
                · intro _; show n + 1 ≤ model.lineCount; omega
              · rw [Option.some.injEq, Prod.mk.injEq] at h
                obtain ⟨rfl, rfl⟩ := h
                refine ⟨stackInv_cons hq2' ?_ ?_ ?_, resInv_mono hr (by omega)⟩
                · show n + 1 ≤ n + 1; exact le_refl _
                · show n + 1 ≤ model.lineCount + 1; omega
                · intro _; show n + 1 ≤ model.lineCount; omega
        · -- no pop
          simp only [finishPlain] at h
          split at h
          · rw [Option.some.injEq, Prod.mk.injEq] at h
            obtain ⟨rfl, rfl⟩ := h
            refine ⟨stackInv_cons (stackInv_mono hsTail (by omega)) ?_ ?_ ?_, resInv_mono hr (by omega)⟩
            · show n + 1 ≤ n + 1; exact le_refl _
            · show n + 1 ≤ model.lineCount + 1; omega
            · intro _; show n + 1 ≤ model.lineCount; omega
          · rw [Option.some.injEq, Prod.mk.injEq] at h
            obtain ⟨rfl, rfl⟩ := h
            have hrest' : StackInv model (n + 1) (previous :: rest) := stackInv_mono hs (by omega)
            refine ⟨stackInv_cons hrest' ?_ ?_ ?_, resInv_mono hr (by omega)⟩
            · show n + 1 ≤ n + 1; exact le_refl _
            · show n + 1 ≤ model.lineCount + 1; omega
            · intro _; show n + 1 ≤ model.lineCount; omega

theorem loop_resInv (model : TextModel) (offSide : Bool) (markers : Option FoldMarkers) (pI mS : Int) :
    ∀ (n : Nat) (s : List PreviousRegion) (r : List IndentRange) (out : List PreviousRegion × List IndentRange),
      n ≤ model.lineCount → StackInv model (n + 1) s → ResInv model mS n r →
      loop model offSide markers pI mS n s r = some out → ResInv model mS 0 out.2 := by
  intro n
  induction n with
  | zero =>
    intro s r out _ _ hr h
    simp only [loop, Option.some.injEq] at h
    rw [← h]
    exact hr
  | succ m ih =>
    intro s r out hlc hs hr h
    simp only [loop] at h
    cases hp : processLine model offSide markers pI mS (m + 1) s r with
    | none => rw [hp] at h; simp at h
    | some sr =>
      obtain ⟨s1, r1⟩ := sr
      rw [hp] at h
      obtain ⟨hs1, hr1⟩ := processLine_inv model offSide markers pI mS hlc hs hr hp
      exact ih s1 r1 out (by omega) hs1 hr1 h

theorem computeRanges_resInv (model : TextModel) (offSide : Bool) (markers : Option FoldMarkers) (mS : Int)
    (rs : List IndentRange) (h : computeRanges model offSide markers mS = some rs) :
    ∃ r1, rs = r1.reverse ∧ ResInv model mS 0 r1 := by
  simp only [computeRanges] at h
  cases hl : loop model offSide markers (patternIndentOf markers) mS model.lineCount
      [⟨-1, model.lineCount + 1, false⟩] [] with
  | none => rw [hl] at h; simp at h
  | some out =>
    obtain ⟨s1, r1⟩ := out
    rw [hl] at h
    rw [Option.some.injEq] at h
    refine ⟨r1, h.symm, ?_⟩
    exact loop_resInv model offSide markers (patternIndentOf markers) mS model.lineCount _ _ _
      (le_refl _) (initialStackInv model) (initialResInv model mS) hl

theorem processLine_total (model : TextModel) (offSide : Bool) (markers : Option FoldMarkers) (pI mS : Int)
    (hwf : WellFormed model) (line : Nat) (s : List PreviousRegion) (r : List IndentRange)
    (hbot : BotSentinel s) :
    ∃ s2 r2, processLine model offSide markers pI mS line s r = some (s2, r2) ∧ BotSentinel s2 := by
  cases s with
  | nil =>
    obtain ⟨init, b, he, -, -⟩ := hbot
    simp at he
  | cons previous rest =>
    simp only [processLine]
    by_cases hind : model.getIndentLevel line = -1
    · rw [if_pos hind]
      by_cases hos : offSide = true
      · rw [if_pos hos]
        exact ⟨_, _, rfl, hbot.replace_head_line line⟩
      · rw [if_neg hos]
        exact ⟨_, _, rfl, hbot⟩
    · rw [if_neg hind]
      have hindge : 0 ≤ model.getIndentLevel line := by
        have := hwf line; omega
      cases hm : matchLine markers pI (model.getIndentLevel line) (model.getLineContent line) with
      | some bv =>
        cases bv with
        | true =>
          dsimp only
          by_cases hc : 0 ≤ previous.indent ∧ previous.marker = false
          · rw [if_pos hc]
            obtain ⟨init, b, he, hb1, hb2⟩ := hbot
            rw [he]
            obtain ⟨init2, hd⟩ := discardLoop_bot init b hb1
            rw [hd]
            cases init2 with
            | nil =>
              dsimp only [List.nil_append]
              rw [hb2, if_neg Bool.false_ne_true]
              exact ⟨_, _, rfl, ⟨[], b, rfl, hb1, hb2⟩⟩
            | cons a t =>
              dsimp only [List.cons_append]
              by_cases hma : a.marker = true
              · rw [if_pos hma]
                exact ⟨_, _, rfl, ⟨⟨model.getIndentLevel line, line, false⟩ :: t, b, rfl, hb1, hb2⟩⟩
              · rw [if_neg hma]
                exact ⟨_, _, rfl, ⟨a :: t, b, rfl, hb1, hb2⟩⟩
          · rw [if_neg hc]
            dsimp only
            by_cases hma : previous.marker = true
            · rw [if_pos hma]
              rcases hbot.head_tail with ⟨-, hmk, -⟩ | h3
              · rw [hmk] at hma
                exact absurd hma Bool.false_ne_true
              · exact ⟨_, _, rfl, botSentinel_cons h3 _⟩
            · rw [if_neg hma]
              exact ⟨_, _, rfl, hbot⟩
        | false =>
          exact ⟨_, _, rfl, botSentinel_cons hbot _⟩
      | none =>
        dsimp only
        by_cases hgt : previous.indent > model.getIndentLevel line
        · rw [if_pos hgt]
          obtain ⟨init, b, he, hb1, hb2⟩ := hbot
          rw [he]
          obtain ⟨init2, hd⟩ := popLoop_bot (model.getIndentLevel line) (by omega) init b hb1
          rw [hd]
          have hbne : ¬ b.indent = model.getIndentLevel line := by rw [hb1]; omega
          cases init2 with
          | nil =>
            dsimp only [List.nil_append]
            by_cases hcond : mS ≤ ((b.line - 1 : Nat) : Int) - (line : Int)
            · rw [if_pos hcond]
              simp only [finishPlain]
              rw [if_neg hbne]
              exact ⟨_, _, rfl, ⟨[⟨model.getIndentLevel line, line, false⟩], b, rfl, hb1, hb2⟩⟩
            · rw [if_neg hcond]
              simp only [finishPlain]
              rw [if_neg hbne]
              exact ⟨_, _, rfl, ⟨[⟨model.getIndentLevel line, line, false⟩], b, rfl, hb1, hb2⟩⟩
          | cons a t =>
            dsimp only [List.cons_append]
            by_cases hcond : mS ≤ ((a.line - 1 : Nat) : Int) - (line : Int)
            · rw [if_pos hcond]
              simp only [finishPlain]
              by_cases haeq : a.indent = model.getIndentLevel line
              · rw [if_pos haeq]
                exact ⟨_, _, rfl, ⟨{ a with line := line } :: t, b, rfl, hb1, hb2⟩⟩
              · rw [if_neg haeq]
                exact ⟨_, _, rfl, ⟨⟨model.getIndentLevel line, line, false⟩ :: a :: t, b, rfl, hb1, hb2⟩⟩
            · rw [if_neg hcond]
              simp only [finishPlain]
              by_cases haeq : a.indent = model.getIndentLevel line
              · rw [if_pos haeq]
                exact ⟨_, _, rfl, ⟨{ a with line := line } :: t, b, rfl, hb1, hb2⟩⟩
              · rw [if_neg haeq]
                exact ⟨_, _, rfl, ⟨⟨model.getIndentLevel line, line, false⟩ :: a :: t, b, rfl, hb1, hb2⟩⟩
        · rw [if_neg hgt]
          simp only [finishPlain]
          by_cases haeq : previous.indent = model.getIndentLevel line
          · rw [if_pos haeq]
            exact ⟨_, _, rfl, hbot.replace_head_line line⟩
          · rw [if_neg haeq]
            exact ⟨_, _, rfl, botSentinel_cons hbot _⟩

theorem loop_total (model : TextModel) (offSide : Bool) (markers : Option FoldMarkers) (pI mS : Int)
    (hwf : WellFormed model) :
    ∀ (n : Nat) (s : List PreviousRegion) (r : List IndentRange), BotSentinel s →
      ∃ s2 r2, loop model offSide markers pI mS n s r = some (s2, r2) ∧ BotSentinel s2 := by
  intro n
  induction n with
  | zero => intro s r hb; exact ⟨s, r, rfl, hb⟩
  | succ m ih =>
    intro s r hb
    obtain ⟨s1, r1, h1, hb1⟩ := processLine_total model offSide markers pI mS hwf (m + 1) s r hb
    obtain ⟨s2, r2, h2, hb2⟩ := ih s1 r1 hb1
    refine ⟨s2, r2, ?_, hb2⟩
    simp only [loop]
    rw [h1]
    exact h2

/-- C1 is false as stated: on the five-line model with indents `[0,1,2,1,0]`,
`offSide = false`, no markers and `minimumRangeSize = 1`, the emission rule
described by the claim (one range per popped region, span measured against
the popped region's own `line`, indent taken from the popped region) emits
nothing at all, while the source emits the two ranges `[1,4]` and `[2,3]`
(one per line, after the pop loop, with the current line's indent). -/
theorem claimC1_counterexample :
    computeRangesClaimC1 mC6 false none 1 = some [] ∧
    computeRanges mC6 false none 1 = some [⟨1, 4, 0, none⟩, ⟨2, 3, 1, none⟩] :=
  ⟨by decide, by decide⟩

/-- C1 (amended): when a plain indentation line is processed and the top of the
pending-region stack has an indent exceeding the current line's indent, all
regions with larger indent are popped, and then at most ONE range is emitted:
`[line, newTop.line - 1]` carrying the CURRENT line's indent, where `newTop`
is the stack top after the pop loop, and only if
`newTop.line - 1 - line >= minimumRangeSize`; afterwards the stack is updated
by `finishPlain` (merge with an equal-indent top or push a new region).  No
range is emitted per popped region and the popped regions' indents are not
used. -/
theorem claimC1_amended (model : TextModel) (offSide : Bool) (pI mS : Int) (line : Nat)
    (previous p2 : PreviousRegion) (rest r2 : List PreviousRegion) (result : List IndentRange)
    (hind : model.getIndentLevel line ≠ -1)
    (hgt : previous.indent > model.getIndentLevel line)
    (hpop : popLoop (model.getIndentLevel line) (previous :: rest) = some (p2 :: r2)) :
    processLine model offSide none pI mS line (previous :: rest) result =
      some (finishPlain (model.getIndentLevel line) line p2 r2
        (if mS ≤ ((p2.line - 1 : Nat) : Int) - (line : Int) then
          result ++ [⟨line, p2.line - 1, model.getIndentLevel line, none⟩]
        else result)) := by
  simp only [processLine, matchLine]
  rw [if_neg hind]
  rw [if_pos hgt, hpop]
  dsimp only
  by_cases hcond : mS ≤ ((p2.line - 1 : Nat) : Int) - (line : Int)
  · rw [if_pos hcond, if_pos hcond]
  · rw [if_neg hcond, if_neg hcond]

/-- Witness for C1 (amended): line 2 of the `[0,1,2,1,0]` model pops the
region of indent 2 and emits the single range `[2,3]` with the current
indent 1. -/
theorem claimC1_amended_witness :
    processLine mC6 false none (-1) 1 2
      [⟨2, 3, false⟩, ⟨1, 4, false⟩, ⟨-1, 6, false⟩] [] =
      some ([⟨1, 2, false⟩, ⟨-1, 6, false⟩], [⟨2, 3, 1, none⟩]) := by
  have h := claimC1_amended mC6 false (-1) 1 2 ⟨2, 3, false⟩ ⟨1, 4, false⟩
    [⟨1, 4, false⟩, ⟨-1, 6, false⟩] [⟨-1, 6, false⟩] [] (by decide) (by decide) (by decide)
  rw [h]
  decide

/-- C2: for every model, offSide flag, marker configuration and minimum range
size, the sequence returned by `computeRanges` is sorted in ascending order
of `startLineNumber`. -/
theorem computeRanges_sorted (model : TextModel) (offSide : Bool) (markers : Option FoldMarkers)
    (minimumRangeSize : Int) (rs : List IndentRange)
    (h : computeRanges model offSide markers minimumRangeSize = some rs) :
    rs.Pairwise (fun a b => a.startLineNumber ≤ b.startLineNumber) := by
  obtain ⟨r1, rfl, hinv⟩ := computeRanges_resInv model offSide markers minimumRangeSize rs h
  rw [List.pairwise_reverse]
  exact hinv.1.imp (fun hab => le_of_lt hab)

/-- Witness for C2 on the `[0,1,2,1,0]` model. -/
theorem computeRanges_sorted_witness :
    ([⟨1, 4, 0, none⟩, ⟨2, 3, 1, none⟩] : List IndentRange).Pairwise
      (fun a b => a.startLineNumber ≤ b.startLineNumber) :=
  computeRanges_sorted mC6 false none 1 [⟨1, 4, 0, none⟩, ⟨2, 3, 1, none⟩] (by decide)

/-- C3: every range returned by `computeRanges` satisfies
`startLineNumber <= endLineNumber` and both bounds lie within
`[1, lineCount]`. -/
theorem computeRanges_bounds (model : TextModel) (offSide : Bool) (markers : Option FoldMarkers)
    (minimumRangeSize : Int) (rs : List IndentRange)
    (h : computeRanges model offSide markers minimumRangeSize = some rs) :
    ∀ r ∈ rs, 1 ≤ r.startLineNumber ∧ r.startLineNumber ≤ r.endLineNumber ∧
      r.endLineNumber ≤ model.lineCount := by
  obtain ⟨r1, rfl, hinv⟩ := computeRanges_resInv model offSide markers minimumRangeSize rs h
  intro r hr
  rw [List.mem_reverse] at hr
  obtain ⟨h1, h2, h3, -⟩ := hinv.2 r hr
  exact ⟨h1, h2, h3⟩

/-- Witness for C3 on the `[0,1,2,1,0]` model. -/
theorem computeRanges_bounds_witness :
    1 ≤ (⟨1, 4, 0, none⟩ : IndentRange).startLineNumber ∧
    (⟨1, 4, 0, none⟩ : IndentRange).startLineNumber ≤ (⟨1, 4, 0, none⟩ : IndentRange).endLineNumber ∧
    (⟨1, 4, 0, none⟩ : IndentRange).endLineNumber ≤ mC6.lineCount :=
  computeRanges_bounds mC6 false none 1 [⟨1, 4, 0, none⟩, ⟨2, 3, 1, none⟩] (by decide) ⟨1, 4, 0, none⟩ (by decide)

/-- C4: every returned range that is not marker-derived respects
`minimumRangeSize <= endLineNumber - startLineNumber`, while marker-derived
ranges bypass the filter: with `minimumRangeSize = 10` the marker range
`[1,3]` (span 2) is still returned. -/
theorem computeRanges_minimumRangeSize :
    (∀ (model : TextModel) (offSide : Bool) (markers : Option FoldMarkers) (minimumRangeSize : Int)
        (rs : List IndentRange), computeRanges model offSide markers minimumRangeSize = some rs →
        ∀ r ∈ rs, r.marker ≠ some true →
          minimumRangeSize ≤ (r.endLineNumber : Int) - (r.startLineNumber : Int)) ∧
    computeRanges mC7 false (some markersC7) 10 = some [⟨1, 3, 0, some true⟩] := by
  constructor
  · intro model offSide markers mS rs h r hr hm
    obtain ⟨r1, rfl, hinv⟩ := computeRanges_resInv model offSide markers mS _ h
    rw [List.mem_reverse] at hr
    exact (hinv.2 r hr).2.2.2 hm
  · decide

/-- Witness for C4 on the `[0,1,2,1,0]` model. -/
theorem computeRanges_minimumRangeSize_witness :
    (1 : Int) ≤ ((⟨1, 4, 0, none⟩ : IndentRange).endLineNumber : Int) -
      ((⟨1, 4, 0, none⟩ : IndentRange).startLineNumber : Int) :=
  computeRanges_minimumRangeSize.1 mC6 false none 1 [⟨1, 4, 0, none⟩, ⟨2, 3, 1, none⟩]
    (by decide) ⟨1, 4, 0, none⟩ (by decide) (by decide)

/-- C5: on a whitespace-only line (indent sentinel `-1`), under `offSide` the
only state change is advancing the top-of-stack's `line` to the current line,
and without `offSide` the line is skipped with no state change at all;
consequently for an offSide language a blank line inside an indented block
does not split the block: the `[0,1,-1,1,0]` model yields the single range
`[1,4]`. -/
theorem processLine_whitespace :
    (∀ (model : TextModel) (offSide : Bool) (markers : Option FoldMarkers) (pI mS : Int)
        (line : Nat) (previous : PreviousRegion) (rest : List PreviousRegion) (result : List IndentRange),
        model.getIndentLevel line = -1 →
        processLine model offSide markers pI mS line (previous :: rest) result =
          some ((if offSide then { previous with line := line } :: rest else previous :: rest), result)) ∧
    computeRanges mC5 true none 1 = some [⟨1, 4, 0, none⟩] := by
  constructor
  · intro model offSide markers pI mS line previous rest result hind
    simp only [processLine]
    rw [if_pos hind]
    by_cases hos : offSide = true
    · rw [if_pos hos, if_pos hos]
    · rw [if_neg hos, if_neg hos]
  · decide

/-- Witness for C5: the blank line 3 of the `[0,1,-1,1,0]` model under
`offSide` only rewrites the top-of-stack's line from 4 to 3. -/
theorem processLine_whitespace_witness :
    processLine mC5 true none (-1) 1 3 [⟨1, 4, false⟩, ⟨-1, 6, false⟩] [] =
      some ([⟨1, 3, false⟩, ⟨-1, 6, false⟩], []) := by
  have h := processLine_whitespace.1 mC5 true none (-1) 1 3 ⟨1, 4, false⟩
    [⟨-1, 6, false⟩] [] (by decide)
  rw [h]
  decide

/-- C6 is false as stated: the two ranges are not returned in the order
`{2,3,1}` then `{1,4,0}`. -/
theorem computeRanges_example_counterexample :
    computeRanges mC6 false none 1 ≠ some [⟨2, 3, 1, none⟩, ⟨1, 4, 0, none⟩] := by
  decide

/-- C6 (amended): on the five-line model with indents `[0,1,2,1,0]`,
`offSide = false`, no markers and `minimumRangeSize = 1`, `computeRanges`
returns exactly the two claimed ranges, but in ascending order of
`startLineNumber`: `{1,4,indent 0}` followed by `{2,3,indent 1}`. -/
theorem computeRanges_example :
    computeRanges mC6 false none 1 = some [⟨1, 4, 0, none⟩, ⟨2, 3, 1, none⟩] := by
  decide

/-- C7: with markers `#region` / `#endregion`, no indent constraint and the
buffer `#region` / `code` / `#endregion`, the single marker range `[1,3]` is
returned, the end-marker line included as its last line. -/
theorem computeRanges_markers_example :
    computeRanges mC7 false (some markersC7) 1 = some [⟨1, 3, 0, some true⟩] := by
  decide

/-- C8: for every well-formed model the computation is total (it returns a
value, never the out-of-bounds failure), and when `lineCount` is 0 it returns
the empty sequence. -/
theorem computeRanges_total (model : TextModel) (offSide : Bool) (markers : Option FoldMarkers)
    (minimumRangeSize : Int) (hwf : WellFormed model) :
    (∃ rs, computeRanges model offSide markers minimumRangeSize = some rs) ∧
    (model.lineCount = 0 → computeRanges model offSide markers minimumRangeSize = some []) := by
  constructor
  · obtain ⟨s2, r2, h, -⟩ := loop_total model offSide markers (patternIndentOf markers)
      minimumRangeSize hwf model.lineCount [⟨-1, model.lineCount + 1, false⟩] []
      ⟨[], ⟨-1, model.lineCount + 1, false⟩, rfl, rfl, rfl⟩
    refine ⟨r2.reverse, ?_⟩
    simp only [computeRanges]
    rw [h]
  · intro h0
    simp only [computeRanges, h0, loop]
    rfl

/-- Witness for C8 on the empty buffer. -/
theorem computeRanges_total_witness :
    (∃ rs, computeRanges mEmpty false none 1 = some rs) ∧
    (mEmpty.lineCount = 0 → computeRanges mEmpty false none 1 = some []) :=
  computeRanges_total mEmpty false none 1 (mkModel_wf [] [] (by intro i hi; simp at hi))

/-- C9: for a well-formed model the pending-region stack always keeps the base
sentinel (indent `-1`, no marker) at its bottom and is in particular never
empty: from any state whose stack carries the bottom sentinel, the remaining
loop succeeds — both pop loops stop as soon as the top's indent is negative,
so the sentinel is never popped and every access to the top of the stack is
in bounds — and the final stack still carries the bottom sentinel. -/
theorem loop_sentinel_preserved (model : TextModel) (offSide : Bool) (markers : Option FoldMarkers)
    (pI mS : Int) (hwf : WellFormed model) (n : Nat) (s : List PreviousRegion) (r : List IndentRange)
    (hb : BotSentinel s) :
    ∃ s2 r2, loop model offSide markers pI mS n s r = some (s2, r2) ∧ BotSentinel s2 :=
  loop_total model offSide markers pI mS hwf n s r hb

/-- Witness for C9: the full run on the `[0,1,2,1,0]` model from the seeded
sentinel stack. -/
theorem loop_sentinel_preserved_witness :
    ∃ s2 r2, loop mC6 false none (-1) 1 5 [⟨-1, 6, false⟩] [] = some (s2, r2) ∧ BotSentinel s2 :=
  loop_sentinel_preserved mC6 false none (-1) 1
    (mkModel_wf [0, 1, 2, 1, 0] ["", "", "", "", ""] (by decide))
    5 [⟨-1, 6, false⟩] [] ⟨[], ⟨-1, 6, false⟩, rfl, rfl, rfl⟩

/-- C10: `deepCloneArr` preserves the length and the `startLineNumber`,
`endLineNumber` and `indent` of every element, but the `marker` field of
every clone is unset (`none`), so a range with `marker = true` loses its
marker flag under cloning. -/
theorem deepCloneArr_spec (rs : List IndentRange) :
    (IndentRange.deepCloneArr rs).length = rs.length ∧
    ∀ (i : Nat) (r r' : IndentRange), rs[i]? = some r →
      (IndentRange.deepCloneArr rs)[i]? = some r' →
      r'.startLineNumber = r.startLineNumber ∧ r'.endLineNumber = r.endLineNumber ∧
      r'.indent = r.indent ∧ r'.marker = none := by
  constructor
  · simp [IndentRange.deepCloneArr]
  · intro i r r' h1 h2
    simp only [IndentRange.deepCloneArr, List.getElem?_map, h1, Option.map_some'] at h2
    rw [Option.some.injEq] at h2
    rw [← h2]
    exact ⟨rfl, rfl, rfl, rfl⟩

/-- Witness for C10: cloning a singleton whose element has `marker = true`
keeps the length and drops the flag. -/
theorem deepCloneArr_spec_witness :
    (IndentRange.deepCloneArr [⟨1, 3, 0, some true⟩]).length =
      ([⟨1, 3, 0, some true⟩] : List IndentRange).length ∧
    (⟨1, 3, 0, none⟩ : IndentRange).marker = none :=
  ⟨(deepCloneArr_spec [⟨1, 3, 0, some true⟩]).1,
   ((deepCloneArr_spec [⟨1, 3, 0, some true⟩]).2 0 ⟨1, 3, 0, some true⟩ ⟨1, 3, 0, none⟩
     rfl rfl).2.2.2⟩

end IndentRanges
